import Mathlib

/-!
Verification of the ditto-repo mirroring engine (package `repo`).

The Go source is shallowly embedded: pure parsing functions become Lean
functions over `String` / `List Char`; the filesystem is an explicit
association list of path/entry pairs (mirroring the `MemFileSystem` mock:
a map from normalized path to file data with a directory flag); the HTTP
transport and the SHA-256 accumulator are oracle parameters, since the
control flow of the Go code never inspects their internals.
-/

namespace Ditto

/-! ## String helpers mirroring the Go standard library -/

/-- Go `unicode.IsSpace` restricted to the ASCII range used by
`strings.Fields` / `strings.TrimSpace` on repository metadata. -/
def isGoSpace (c : Char) : Bool :=
  c = ' ' || c = '\t' || c = '\n' || c = '\r' || c = '\x0b' || c = '\x0c'

/-- Go `strings.HasPrefix s pre`. -/
def goStartsWith (s pre : String) : Bool :=
  pre.data.isPrefixOf s.data

/-- Go `strings.HasSuffix s suf`. -/
def goEndsWith (s suf : String) : Bool :=
  suf.data.isSuffixOf s.data

/-- Does `pat` occur as a contiguous sublist? -/
def containsSub (pat : List Char) : List Char → Bool
  | [] => pat.isPrefixOf []
  | c :: rest => pat.isPrefixOf (c :: rest) || containsSub pat rest

/-- Go `strings.Contains s sub`. -/
def goContains (s sub : String) : Bool :=
  containsSub sub.data s.data

/-- Remainder of `s` after a prefix of `n` characters
(Go `strings.TrimPrefix`, used only under a `HasPrefix` guard). -/
def stringDrop (s : String) (n : Nat) : String :=
  ⟨s.data.drop n⟩

/-- Split a character list at every occurrence of the separator,
keeping empty pieces. -/
def splitCh (sep : Char) : List Char → List (List Char)
  | [] => [[]]
  | c :: cs =>
    let rest := splitCh sep cs
    if c = sep then [] :: rest
    else match rest with
      | [] => [[c]]
      | p :: ps => (c :: p) :: ps

/-- Strip one trailing carriage return (Go `bufio.ScanLines`). -/
def dropFinalCR (l : List Char) : List Char :=
  match l.reverse with
  | '\r' :: rest => rest.reverse
  | _ => l

/-- The lines a Go `bufio.Scanner` with `ScanLines` yields for `s`:
split on newline, no trailing empty line for a newline-terminated input,
each line stripped of a final carriage return. -/
def goLines (s : String) : List String :=
  if s.data = [] then []
  else
    let pieces := splitCh '\n' s.data
    let pieces := match pieces.reverse with
      | [] :: rest => rest.reverse
      | _ => pieces
    pieces.map (fun l => ⟨dropFinalCR l⟩)

/-- Go `strings.Fields`: split on whitespace, dropping empty fields. -/
def goFields (s : String) : List String :=
  ((splitCh ' ' (s.data.map (fun c => if isGoSpace c then ' ' else c))).filter
    (fun l => l ≠ [])).map (fun l : List Char => (⟨l⟩ : String))

/-- Go `strings.TrimSpace s == ""`: every character is whitespace. -/
def isBlankLine (s : String) : Bool :=
  s.data.all isGoSpace

/-- Go `path.Join` on two nonempty cleaned segments (the general cleaning
of `..` and duplicate slashes is irrelevant to the mirrored paths). -/
def pathJoin (a b : String) : String :=
  if a = "" then b else if b = "" then a else a ++ "/" ++ b

/-- Go `filepath.Dir`: everything before the last slash, `"."` when the
path has no slash (trailing-slash cleanup elided). -/
def goDir (p : String) : String :=
  match (p.data.reverse.dropWhile (fun c => c ≠ '/')) with
  | [] => "."
  | _ :: rest => if rest = [] then "/" else ⟨rest.reverse⟩

/-- A Go-style `for ... range` loop over a list that breaks at the first
element satisfying `f` (the shape of every filter loop in `isDesired`). -/
def loopAny (f : String → Bool) : List String → Bool
  | [] => false
  | x :: xs => if f x then true else loopAny f xs

/-! ## The filesystem model

Mirrors `MemFileSystem`: a finite map from path to entry.  An entry is a
file (`isDir = false`) or a directory created by `MkdirAll`.  The extra
`readOk` flag models the capability of `Open`/`Read` to fail on an
existing file, which the `FileSystem` interface allows. -/

structure FileEntry where
  content : String
  readOk : Bool
  isDir : Bool
deriving DecidableEq, Repr

/-- The filesystem: an association list of (path, entry); the Go map has
unique keys, which theorems assume where it matters. -/
abbrev FS := List (String × FileEntry)

def fsLookup : FS → String → Option FileEntry
  | [], _ => none
  | (q, e) :: rest, p => if q = p then some e else fsLookup rest p

/-- `Remove`: delete every entry at the path (the mock's `delete`). -/
def fsRemove (fs : FS) (p : String) : FS :=
  fs.filter (fun x => decide (x.1 ≠ p))

/-- `Create` + write + `Close`: store file data at the path. -/
def fsWrite (fs : FS) (p : String) (c : String) : FS :=
  (p, ⟨c, true, false⟩) :: fsRemove fs p

/-- `Rename old new` (the mock moves the entry; `old` is always present
at every call site in the engine). -/
def fsRename (fs : FS) (old new : String) : FS :=
  match fsLookup fs old with
  | none => fs
  | some e => (new, e) :: fsRemove (fsRemove fs old) new

/-- `MkdirAll` restricted to the leaf directory (parents never matter to
any claim): add a directory entry unless the path already exists. -/
def fsMkdir (fs : FS) (p : String) : FS :=
  match fsLookup fs p with
  | some _ => fs
  | none => (p, ⟨"", true, true⟩) :: fs

theorem fsLookup_filter (fs : FS) (p : String) (f : String × FileEntry → Bool)
    (hp : ∀ e, f (p, e) = true) :
    fsLookup (fs.filter f) p = fsLookup fs p := by
  induction fs with
  | nil => rfl
  | cons x rest ih =>
    by_cases hx : x.1 = p
    · obtain ⟨q, e⟩ := x
      simp only at hx
      subst hx
      simp [List.filter, hp e, fsLookup]
    · obtain ⟨q, e⟩ := x
      simp only at hx
      by_cases hf : f (q, e) = true
      · simp [List.filter, hf, fsLookup, hx, ih]
      · simp only [List.filter, Bool.not_eq_true] at hf
        simp [List.filter, hf, fsLookup, hx, ih]

theorem fsLookup_remove_ne (fs : FS) (p q : String) (h : q ≠ p) :
    fsLookup (fsRemove fs p) q = fsLookup fs q := by
  unfold fsRemove
  apply fsLookup_filter
  intro e
  simp [h]

theorem fsLookup_remove_self (fs : FS) (p : String) :
    fsLookup (fsRemove fs p) p = none := by
  induction fs with
  | nil => rfl
  | cons x rest ih =>
    obtain ⟨q, e⟩ := x
    by_cases hx : q = p
    · subst hx
      simpa [fsRemove, List.filter] using ih
    · simpa [fsRemove, List.filter, hx, fsLookup] using ih

theorem fsLookup_write_self (fs : FS) (p c) :
    fsLookup (fsWrite fs p c) p = some ⟨c, true, false⟩ := by
  simp [fsWrite, fsLookup]

theorem fsLookup_write_ne (fs : FS) (p c q) (h : q ≠ p) :
    fsLookup (fsWrite fs p c) q = fsLookup fs q := by
  simp [fsWrite, fsLookup, Ne.symm h, fsLookup_remove_ne fs p q h]

theorem fsLookup_mkdir_ne (fs : FS) (p q : String) (h : q ≠ p) :
    fsLookup (fsMkdir fs p) q = fsLookup fs q := by
  unfold fsMkdir
  cases fsLookup fs p with
  | some e => rfl
  | none => simp [fsLookup, Ne.symm h]

/-! ## Configuration and record types (from `DittoConfig`, `packageMeta`,
`downloadJob` in the source) -/

structure DittoConfig where
  RepoURL : String
  Dists : List String
  Components : List String
  Archs : List String
  Languages : List String
  DownloadPath : String
deriving Repr

structure packageMeta where
  Path : String
  SHA256 : String
deriving DecidableEq, Repr

structure downloadJob where
  URL : String
  Dest : String
  Checksum : String
deriving DecidableEq, Repr

/-! ## IndexFilter: `isDesired` -/

/-- `dittoRepo.isDesired` from the source: the component must prefix the
path, and the path must look like a binary package list, a translation
list, or a command-not-found index. -/
def isDesired (cfg : DittoConfig) (filePath : String) : Bool :=
  let matchedComponent := loopAny (fun c => goStartsWith filePath (c ++ "/")) cfg.Components
  if !matchedComponent then false
  else
    let isBinary := loopAny
      (fun a => goContains filePath ("binary-" ++ a ++ "/") && goContains filePath "Packages")
      cfg.Archs
    let isTranslation :=
      goContains filePath "i18n/Translation-" &&
        loopAny (fun lang => goContains filePath ("Translation-" ++ lang)) cfg.Languages
    let isCnf :=
      goContains filePath "cnf/Commands-" &&
        loopAny (fun a => goContains filePath ("Commands-" ++ a)) cfg.Archs
    isBinary || isTranslation || isCnf

theorem loopAny_eq_any (f : String → Bool) (l : List String) :
    loopAny f l = l.any f := by
  induction l with
  | nil => rfl
  | cons x xs ih =>
    by_cases h : f x = true
    · simp [loopAny, h]
    · simp only [Bool.not_eq_true] at h
      simp [loopAny, h, ih]

theorem isDesired_eq_bool (cfg : DittoConfig) (p : String) :
    isDesired cfg p =
      (cfg.Components.any (fun c => goStartsWith p (c ++ "/")) &&
        (cfg.Archs.any
            (fun a => goContains p ("binary-" ++ a ++ "/") && goContains p "Packages") ||
          (goContains p "i18n/Translation-" &&
            cfg.Languages.any (fun lang => goContains p ("Translation-" ++ lang))) ||
          (goContains p "cnf/Commands-" &&
            cfg.Archs.any (fun a => goContains p ("Commands-" ++ a))))) := by
  unfold isDesired
  simp only [loopAny_eq_any]
  cases h : cfg.Components.any (fun c => goStartsWith p (c ++ "/")) <;>
    simp [h, Bool.or_assoc]

/-- C5 -- `isDesired` is the conjunction of a component prefix match with
the disjunction of the binary-package, translation and command-index
predicates, and it rejects every path when all three filter lists are
empty. -/
theorem isDesired_characterization (cfg : DittoConfig) (p : String) :
    (isDesired cfg p = true ↔
      ((∃ c ∈ cfg.Components, goStartsWith p (c ++ "/") = true) ∧
        ((∃ a ∈ cfg.Archs, goContains p ("binary-" ++ a ++ "/") = true ∧
            goContains p "Packages" = true) ∨
          (goContains p "i18n/Translation-" = true ∧
            ∃ lang ∈ cfg.Languages, goContains p ("Translation-" ++ lang) = true) ∨
          (goContains p "cnf/Commands-" = true ∧
            ∃ a ∈ cfg.Archs, goContains p ("Commands-" ++ a) = true)))) ∧
    (cfg.Components = [] → cfg.Archs = [] → cfg.Languages = [] →
      ∀ q, isDesired cfg q = false) := by
  constructor
  · rw [isDesired_eq_bool]
    simp only [Bool.and_eq_true, Bool.or_eq_true, List.any_eq_true]
    rw [or_assoc]
  · intro h1 _ _ q
    rw [isDesired_eq_bool, h1]
    simp

/-- Witness for C5: the filter accepts the canonical amd64 package list
for component `main`, and the all-empty configuration rejects it. -/
theorem isDesired_characterization_witness :
    isDesired ⟨"http://u", ["noble"], ["main"], ["amd64"], ["en"], "/m"⟩
        "main/binary-amd64/Packages.gz" = true ∧
      isDesired ⟨"http://u", ["noble"], [], [], [], "/m"⟩
        "main/binary-amd64/Packages.gz" = false := by
  constructor
  · exact (isDesired_characterization
      ⟨"http://u", ["noble"], ["main"], ["amd64"], ["en"], "/m"⟩
      "main/binary-amd64/Packages.gz").1.mpr
      ⟨⟨"main", by decide, by decide⟩, Or.inl ⟨"amd64", by decide, by decide, by decide⟩⟩
  · exact (isDesired_characterization
      ⟨"http://u", ["noble"], [], [], [], "/m"⟩
      "main/binary-amd64/Packages.gz").2 rfl rfl rfl _

/-! ## ReleaseIndexParser: `parseReleaseFile` -/

/-- Is the line non-empty and not indented (`len(line) > 0 && line[0] != ' '`)? -/
def nonEmptyUnindented (line : String) : Bool :=
  match line.data with
  | [] => false
  | c :: _ => decide (c ≠ ' ')

/-- The body of the SHA256-block loop in `parseReleaseFile`: split the
line on whitespace, skip it when it has fewer than three fields, take the
third field, keep it when its extension is `.gz`/`.xz`/`.bz2` and it
passes `isDesired`. -/
def releaseLineCandidates (cfg : DittoConfig) (line : String) : List String :=
  match (goFields line).get? 2 with
  | none => []
  | some filePath =>
    let validExt := goEndsWith filePath ".gz" || goEndsWith filePath ".xz" ||
      goEndsWith filePath ".bz2"
    if !validExt then []
    else if isDesired cfg filePath then [filePath] else []

/-- One iteration of the scanner loop of `parseReleaseFile`, on the state
(inSha256Block, accumulated relevantFiles). -/
def parseReleaseStep (cfg : DittoConfig) (st : Bool × List String) (line : String) :
    Bool × List String :=
  if goStartsWith line "SHA256:" then (true, st.2)
  else
    let inB := if st.1 && nonEmptyUnindented line then false else st.1
    if inB then (true, st.2 ++ releaseLineCandidates cfg line) else (false, st.2)

/-- `dittoRepo.parseReleaseFile` from the source: line-oriented scan of the
Release manifest collecting the desired index paths in scan order. -/
def parseReleaseFile (cfg : DittoConfig) (content : String) : List String :=
  ((goLines content).foldl (parseReleaseStep cfg) (false, [])).2

/-- Modelled from the claim wording for comparison: the scan of spec §4.2
read literally, where a checksum block begins ONLY at a line exactly equal
to the token `SHA256:` with no trailing content, and ends at the first
subsequent line that is non-empty and not indented. -/
def releaseScanExact (cfg : DittoConfig) : Bool → List String → List String
  | _, [] => []
  | false, l :: ls =>
    if l = "SHA256:" then releaseScanExact cfg true ls
    else releaseScanExact cfg false ls
  | true, l :: ls =>
    if l = "SHA256:" then releaseScanExact cfg true ls
    else if nonEmptyUnindented l then releaseScanExact cfg false ls
    else releaseLineCandidates cfg l ++ releaseScanExact cfg true ls

def parseReleaseSpecExact (cfg : DittoConfig) (content : String) : List String :=
  releaseScanExact cfg false (goLines content)

/-- The amended spec scan: identical to `releaseScanExact` except that a
checksum block begins at any line CARRYING THE PREFIX `SHA256:` (trailing
content after the colon is accepted), which is what the source checks. -/
def releaseScanAmended (cfg : DittoConfig) : Bool → List String → List String
  | _, [] => []
  | false, l :: ls =>
    if goStartsWith l "SHA256:" then releaseScanAmended cfg true ls
    else releaseScanAmended cfg false ls
  | true, l :: ls =>
    if goStartsWith l "SHA256:" then releaseScanAmended cfg true ls
    else if nonEmptyUnindented l then releaseScanAmended cfg false ls
    else releaseLineCandidates cfg l ++ releaseScanAmended cfg true ls

def parseReleaseSpecAmended (cfg : DittoConfig) (content : String) : List String :=
  releaseScanAmended cfg false (goLines content)

theorem parseReleaseFoldl_scan (cfg : DittoConfig) (lines : List String) :
    ∀ acc : List String,
      (lines.foldl (parseReleaseStep cfg) (true, acc)).2 =
        acc ++ releaseScanAmended cfg true lines ∧
      (lines.foldl (parseReleaseStep cfg) (false, acc)).2 =
        acc ++ releaseScanAmended cfg false lines := by
  induction lines with
  | nil => intro acc; simp [releaseScanAmended]
  | cons l ls ih =>
    intro acc
    constructor
    · by_cases hs : goStartsWith l "SHA256:" = true
      · simp [List.foldl_cons, parseReleaseStep, hs, releaseScanAmended, (ih acc).1]
      · simp only [Bool.not_eq_true] at hs
        by_cases hu : nonEmptyUnindented l = true
        · simp [List.foldl_cons, parseReleaseStep, hs, hu, releaseScanAmended, (ih acc).2]
        · simp only [Bool.not_eq_true] at hu
          simp [List.foldl_cons, parseReleaseStep, hs, hu, releaseScanAmended,
            (ih (acc ++ releaseLineCandidates cfg l)).1]
    · by_cases hs : goStartsWith l "SHA256:" = true
      · simp [List.foldl_cons, parseReleaseStep, hs, releaseScanAmended, (ih acc).1]
      · simp only [Bool.not_eq_true] at hs
        simp [List.foldl_cons, parseReleaseStep, hs, releaseScanAmended, (ih acc).2]

/-- Counterexample for C2: a line `SHA256:x` is not exactly equal to the
token `SHA256:`, yet the source's scan opens a checksum block at it and
collects the indented entry below it; the claim's literal reading
collects nothing. -/
theorem parseReleaseFile_exact_counterexample :
    parseReleaseFile ⟨"http://u", ["noble"], ["main"], ["amd64"], [], "/m"⟩
        "SHA256:x\n aaa 1 main/binary-amd64/Packages.gz\n" =
      ["main/binary-amd64/Packages.gz"] ∧
    parseReleaseSpecExact ⟨"http://u", ["noble"], ["main"], ["amd64"], [], "/m"⟩
        "SHA256:x\n aaa 1 main/binary-amd64/Packages.gz\n" = [] := by
  constructor <;> decide

/-- C2 (amended) -- the scan recognizes a checksum block as beginning at
any line with prefix `SHA256:` (trailing content accepted, not only the
bare token); the block ends at the first subsequent line that is
non-empty and not indented; inside the block each line is split on
whitespace, lines with fewer than three fields are ignored, and the third
field is the candidate path. -/
theorem parseReleaseFile_eq_spec (cfg : DittoConfig) (content : String) :
    parseReleaseFile cfg content = parseReleaseSpecAmended cfg content := by
  unfold parseReleaseFile parseReleaseSpecAmended
  simpa using (parseReleaseFoldl_scan cfg (goLines content) []).2

/-! ## PackageIndexDecoder: `extractDebsFromIndex` -/

/-- One line of stanza parsing (`Filename: ` / `SHA256: ` prefix capture,
remainder taken verbatim, later occurrences overwrite earlier ones). -/
def stepMeta (cur : packageMeta) (line : String) : packageMeta :=
  if goStartsWith line "Filename: " then { cur with Path := stringDrop line 10 }
  else if goStartsWith line "SHA256: " then { cur with SHA256 := stringDrop line 8 }
  else cur

/-- The scanner loop of `extractDebsFromIndex`: a blank line closes the
stanza and emits it when both captured fields are non-empty; the final
stanza is flushed at end of stream. -/
def extractLoop : packageMeta → Bool → List String → List packageMeta
  | cur, inB, [] =>
    if inB = true ∧ cur.Path ≠ "" ∧ cur.SHA256 ≠ "" then [cur] else []
  | cur, inB, l :: ls =>
    if isBlankLine l then
      (if inB = true ∧ cur.Path ≠ "" ∧ cur.SHA256 ≠ "" then [cur] else []) ++
        extractLoop ⟨"", ""⟩ false ls
    else extractLoop (stepMeta cur l) true ls

/-- The text-parsing part of `dittoRepo.extractDebsFromIndex`, applied to
the decompressed line stream. -/
def extractRecords (lines : List String) : List packageMeta :=
  extractLoop ⟨"", ""⟩ false lines

/-- Split the line stream at blank lines: first stanza plus the later
stanzas (every piece is free of blank lines). -/
def splitStanzas : List String → List String × List (List String)
  | [] => ([], [])
  | l :: ls =>
    let p := splitStanzas ls
    if isBlankLine l then ([], p.1 :: p.2) else (l :: p.1, p.2)

def stanzaList (lines : List String) : List (List String) :=
  (splitStanzas lines).1 :: (splitStanzas lines).2

/-- Modelled from the claim wording: the record a stanza yields, if any --
fold the two-field capture over the stanza (so the last occurrence of a
repeated key wins) and emit exactly when both fields are non-empty. -/
def stanzaRecord (st : List String) : Option packageMeta :=
  let pkg := st.foldl stepMeta ⟨"", ""⟩
  if pkg.Path ≠ "" ∧ pkg.SHA256 ≠ "" then some pkg else none

/-- Modelled from the claim wording: stanza-by-stanza decoding in stanza
order, silently discarding stanzas that yield no record. -/
def decodeStanzasSpec (lines : List String) : List packageMeta :=
  (stanzaList lines).filterMap stanzaRecord

def emitOf (cur : packageMeta) : List packageMeta :=
  if cur.Path ≠ "" ∧ cur.SHA256 ≠ "" then [cur] else []

theorem extractLoop_stanzas (lines : List String) :
    (∀ cur : packageMeta,
      extractLoop cur true lines =
        emitOf ((splitStanzas lines).1.foldl stepMeta cur) ++
          (splitStanzas lines).2.filterMap stanzaRecord) ∧
    extractLoop ⟨"", ""⟩ false lines = decodeStanzasSpec lines := by
  induction lines with
  | nil =>
    constructor
    · intro cur
      simp [extractLoop, splitStanzas, emitOf]
    · simp [extractLoop, decodeStanzasSpec, stanzaList, splitStanzas, stanzaRecord]
  | cons l ls ih =>
    by_cases hb : isBlankLine l = true
    · constructor
      · intro cur
        simp only [extractLoop, hb, if_pos, ih.2, splitStanzas]
        simp [emitOf, decodeStanzasSpec, stanzaList, hb]
      · simp only [extractLoop, hb, if_pos, ih.2]
        simp [decodeStanzasSpec, stanzaList, splitStanzas, hb, stanzaRecord,
          List.filterMap_cons]
    · simp only [Bool.not_eq_true] at hb
      constructor
      · intro cur
        simp only [extractLoop, hb, Bool.false_eq_true, if_neg, ite_false,
          ih.1 (stepMeta cur l), splitStanzas]
        simp [hb]
      · simp only [extractRecords, extractLoop, hb, Bool.false_eq_true, ite_false,
          ih.1 (stepMeta ⟨"", ""⟩ l)]
        simp only [decodeStanzasSpec, stanzaList, splitStanzas, hb, Bool.false_eq_true,
          ite_false, List.filterMap_cons]
        cases hrec : stanzaRecord (l :: (splitStanzas ls).1) with
        | none =>
          simp only [stanzaRecord, List.foldl_cons] at hrec
          simp only [emitOf]
          split at hrec
          · exact absurd hrec (by simp)
          · next hcond =>
            rw [if_neg hcond]
            simp
        | some pkg =>
          simp only [stanzaRecord, List.foldl_cons] at hrec
          simp only [emitOf]
          split at hrec
          · next hcond =>
            rw [if_pos hcond]
            simp only [Option.some.injEq] at hrec
            simp [hrec]
          · exact absurd hrec (by simp)

/-- C3 -- the decompressed package-list text decodes stanza by stanza, in
stanza order: a stanza (blank-line delimited, with the final unterminated
stanza included) yields a record exactly when both a `Filename: ` and an
`SHA256: ` line (exact case-sensitive prefixes) left it with non-empty
captured values, the remainder of each such line is taken verbatim, the
last occurrence of a repeated key wins, and every other stanza is
silently discarded. -/
theorem extractRecords_eq_stanza_decode (content : String) :
    extractRecords (goLines content) = decodeStanzasSpec (goLines content) :=
  (extractLoop_stanzas (goLines content)).2

/-! ## DownloadPipeline: `HTTPDownloader.DownloadFile`

The SHA-256 accumulator and the HTTP transport are oracle parameters:
`hash` maps the streamed body to its hex digest, `fetch` is the outcome of
`http.Get` (transport error, or status code plus body).  `MkdirAll`
creates parent directories only, never a file at the destination, so it
is elided.  The deferred `Close` of the temporary file commits whatever
was streamed, hence the temporary file holds the empty string until the
body is copied. -/

def downloadFile (hash : String → String) (fetch : Except String (Nat × String))
    (fs : FS) (destPath expectedSHA256 : String) : FS × Except String String :=
  let tmpPath := destPath ++ ".tmp"
  let fs1 := fsWrite fs tmpPath ""
  match fetch with
  | Except.error e => (fs1, Except.error ("http error: " ++ e))
  | Except.ok (status, body) =>
    if status = 200 then
      let fs2 := fsWrite fs1 tmpPath body
      let calculatedHash := hash body
      if expectedSHA256 ≠ "" ∧ calculatedHash ≠ expectedSHA256 then
        (fsRemove fs2 tmpPath, Except.error "checksum mismatch")
      else
        (fsRename fs2 tmpPath destPath, Except.ok calculatedHash)
    else (fs1, Except.error "status")

theorem append_tmp_ne (s : String) : s ≠ s ++ ".tmp" := by
  intro h
  have hlen : s.length = (s ++ ".tmp").length := by rw [← h]
  rw [String.length_append] at hlen
  have h4 : (".tmp" : String).length = 4 := rfl
  omega

theorem fsLookup_rename_new (fs : FS) (old new : String) (e : FileEntry)
    (h : fsLookup fs old = some e) :
    fsLookup (fsRename fs old new) new = some e := by
  unfold fsRename
  rw [h]
  simp [fsLookup]

/-- C1 -- `DownloadFile` commits or leaves the destination untouched: on
any error the destination file is unchanged (and on a checksum mismatch
the temporary file has been removed as well); on success the destination
holds exactly the fetched body, the returned hash is the body's digest,
and it equals the expected digest whenever one was supplied. -/
theorem downloadFile_atomic (hash : String → String)
    (fetch : Except String (Nat × String)) (fs : FS) (destPath expectedSHA256 : String) :
    (∀ fs' e, downloadFile hash fetch fs destPath expectedSHA256 = (fs', Except.error e) →
      fsLookup fs' destPath = fsLookup fs destPath) ∧
    (∀ fs' h, downloadFile hash fetch fs destPath expectedSHA256 = (fs', Except.ok h) →
      ∃ body, fetch = Except.ok (200, body) ∧
        fsLookup fs' destPath = some ⟨body, true, false⟩ ∧
        h = hash body ∧ (expectedSHA256 ≠ "" → h = expectedSHA256)) ∧
    (∀ body, fetch = Except.ok (200, body) → expectedSHA256 ≠ "" →
      hash body ≠ expectedSHA256 →
      ∃ fs' e, downloadFile hash fetch fs destPath expectedSHA256 = (fs', Except.error e) ∧
        fsLookup fs' (destPath ++ ".tmp") = none ∧
        fsLookup fs' destPath = fsLookup fs destPath) := by
  have hne : destPath ≠ destPath ++ ".tmp" := append_tmp_ne destPath
  refine ⟨?_, ?_, ?_⟩
  · intro fs' e heq
    unfold downloadFile at heq
    rcases fetch with fe | ⟨status, body⟩
    · simp only [Prod.mk.injEq] at heq
      rw [← heq.1, fsLookup_write_ne fs _ _ _ hne]
    · simp only at heq
      by_cases hst : status = 200
      · rw [if_pos hst] at heq
        by_cases hmis : expectedSHA256 ≠ "" ∧ hash body ≠ expectedSHA256
        · rw [if_pos hmis] at heq
          simp only [Prod.mk.injEq] at heq
          rw [← heq.1, fsLookup_remove_ne _ _ _ hne,
            fsLookup_write_ne _ _ _ _ hne, fsLookup_write_ne _ _ _ _ hne]
        · rw [if_neg hmis] at heq
          simp only [Prod.mk.injEq] at heq
          exact absurd heq.2 (by simp)
      · rw [if_neg hst] at heq
        simp only [Prod.mk.injEq] at heq
        rw [← heq.1, fsLookup_write_ne fs _ _ _ hne]
  · intro fs' h heq
    unfold downloadFile at heq
    rcases fetch with fe | ⟨status, body⟩
    · simp only [Prod.mk.injEq] at heq
      exact absurd heq.2 (by simp)
    · simp only at heq
      by_cases hst : status = 200
      · rw [if_pos hst] at heq
        by_cases hmis : expectedSHA256 ≠ "" ∧ hash body ≠ expectedSHA256
        · rw [if_pos hmis] at heq
          simp only [Prod.mk.injEq] at heq
          exact absurd heq.2 (by simp)
        · rw [if_neg hmis] at heq
          simp only [Prod.mk.injEq] at heq
          have hhb : hash body = h := Except.ok.inj heq.2
          refine ⟨body, by rw [hst], ?_, hhb.symm, ?_⟩
          · rw [← heq.1]
            exact fsLookup_rename_new _ _ _ _ (fsLookup_write_self _ _ _)
          · intro hexp
            rcases not_and_or.mp hmis with hc | hc
            · exact absurd hexp (by simpa using hc)
            · rw [← hhb]
              simpa using hc
      · rw [if_neg hst] at heq
        simp only [Prod.mk.injEq] at heq
        exact absurd heq.2 (by simp)
  · intro body hfe hexp hmis
    refine ⟨fsRemove (fsWrite (fsWrite fs (destPath ++ ".tmp") "") (destPath ++ ".tmp")
        body) (destPath ++ ".tmp"), "checksum mismatch", ?_,
      fsLookup_remove_self _ _, ?_⟩
    · simp only [downloadFile, hfe, if_true]
      rw [if_pos ⟨hexp, hmis⟩]
    · rw [fsLookup_remove_ne _ _ _ hne, fsLookup_write_ne _ _ _ _ hne,
        fsLookup_write_ne _ _ _ _ hne]

/-- Witness for C1, exercising the checksum-mismatch branch at a concrete
input: the temporary file is gone and the (previously absent) destination
is still absent. -/
theorem downloadFile_atomic_witness :
    ∃ fs' e, downloadFile (fun _ => "a") (Except.ok (200, "body")) [] "/m/f" "b" =
        (fs', Except.error e) ∧
      fsLookup fs' ("/m/f" ++ ".tmp") = none ∧
      fsLookup fs' "/m/f" = fsLookup [] "/m/f" :=
  (downloadFile_atomic (fun _ => "a") (Except.ok (200, "body")) [] "/m/f" "b").2.2
    "body" rfl (by decide) (by decide)

/-! ## `extractDebsFromIndex` over the filesystem, and the two stages -/

/-- `dittoRepo.extractDebsFromIndex`: open the local index file,
decompress `.gz` content through the gzip oracle, reject `.xz` with a
format error (not implemented by design), and parse anything else as
plain text. -/
def extractDebsFromIndex (gunzip : String → Except String String) (fs : FS)
    (localPath : String) : Except String (List packageMeta) :=
  match fsLookup fs localPath with
  | none => Except.error "open: file does not exist"
  | some e =>
    if e.isDir = true then Except.error "open: is a directory"
    else if e.readOk = false then Except.error "read error"
    else if goEndsWith localPath ".gz" = true then
      match gunzip e.content with
      | Except.error ge => Except.error ge
      | Except.ok txt => Except.ok (extractRecords (goLines txt))
    else if goEndsWith localPath ".xz" = true then
      Except.error "xz compression not implemented"
    else Except.ok (extractRecords (goLines e.content))

/-- `dittoRepo.verifyFile`: hash the local file's content and compare it
to the expected hex digest. -/
def verifyFile (hash : String → String) (fs : FS) (filePath expectedSHA256 : String) :
    Except String Bool :=
  match fsLookup fs filePath with
  | none => Except.error "open: file does not exist"
  | some e =>
    if e.isDir = true then Except.error "open: is a directory"
    else if e.readOk = false then Except.error "read error"
    else Except.ok (decide (hash e.content = expectedSHA256))

/-- One verification-stage step for one record (the worker body in
`processPackageIndex`): a missing local file, a hashing error (after a
logged warning), or a hash mismatch each queue a download job; only a
hash match resolves the record as kept. -/
def verifyRecord (hash : String → String) (cfg : DittoConfig) (fs : FS)
    (pkg : packageMeta) : Option downloadJob :=
  let localPath := pathJoin cfg.DownloadPath pkg.Path
  let kept : Bool :=
    match fsLookup fs localPath with
    | none => false
    | some _ =>
      match verifyFile hash fs localPath pkg.SHA256 with
      | Except.error _ => false
      | Except.ok b => b
  if kept = true then none
  else some ⟨cfg.RepoURL ++ "/" ++ pkg.Path, localPath, pkg.SHA256⟩

/-- `dittoRepo.processPackageIndex`, observed functionally: the valid
paths recorded into the run-scoped set, and the download jobs queued by
the verification stage.  A parse error is logged and the function
returns, contributing nothing.  Each record is verified independently of
every other, so worker scheduling cannot change this outcome; download
execution is modelled separately by `runDownloads`. -/
def processPackageIndex (hash : String → String)
    (gunzip : String → Except String String) (cfg : DittoConfig) (fs : FS)
    (localIndexPath : String) : List String × List downloadJob :=
  match extractDebsFromIndex gunzip fs localIndexPath with
  | Except.error _ => ([], [])
  | Except.ok debs => (debs.map (·.Path), debs.filterMap (verifyRecord hash cfg fs))

/-- The index loop of `mirrorDistribution` (step 3): each discovered
index whose path names `Packages` is decoded and verified; the loop
continues with the next index regardless of the outcome.  (Fetching and
aliasing of the index files themselves touch no pool file and are elided
here.) -/
def processIndices (hash : String → String) (gunzip : String → Except String String)
    (cfg : DittoConfig) (fs : FS) (dist : String) :
    List String → List String × List downloadJob
  | [] => ([], [])
  | idxPath :: rest =>
    let cur := if goContains idxPath "Packages" = true then
        processPackageIndex hash gunzip cfg fs
          (pathJoin (pathJoin (pathJoin cfg.DownloadPath "dists") dist) idxPath)
      else ([], [])
    let next := processIndices hash gunzip cfg fs dist rest
    (cur.1 ++ next.1, cur.2 ++ next.2)

/-- The Stage-B worker pool, observed functionally: every queued job runs
`downloadFile`; the result is the final filesystem and the number of
committed downloads. -/
def runDownloads (hash : String → String) (fetch : String → Except String (Nat × String))
    (fs : FS) : List downloadJob → FS × Nat
  | [] => (fs, 0)
  | j :: js =>
    let r := downloadFile hash (fetch j.URL) fs j.Dest j.Checksum
    let next := runDownloads hash fetch r.1 js
    match r.2 with
    | Except.ok _ => (next.1, next.2 + 1)
    | Except.error _ => next

theorem goEndsWith_append_left (a b suf : String) (h : goEndsWith b suf = true) :
    goEndsWith (a ++ b) suf = true := by
  unfold goEndsWith at h ⊢
  rw [String.data_append]
  exact List.isSuffixOf_iff_suffix.mpr
    ((List.isSuffixOf_iff_suffix.mp h).trans (List.suffix_append a.data b.data))

theorem goEndsWith_pathJoin (a b suf : String) (hb : goEndsWith b suf = true)
    (hne : b ≠ "") : goEndsWith (pathJoin a b) suf = true := by
  unfold pathJoin
  by_cases ha : a = ""
  · rw [if_pos ha]
    exact hb
  · rw [if_neg ha, if_neg hne]
    exact goEndsWith_append_left _ _ _ hb

theorem goEndsWith_xz_not_gz (p : String) (h : goEndsWith p ".xz" = true) :
    goEndsWith p ".gz" = false := by
  unfold goEndsWith at h ⊢
  rw [show List.isSuffixOf (".xz" : String).data p.data =
      List.isPrefixOf ['z', 'x', '.'] p.data.reverse from rfl] at h
  rw [show List.isSuffixOf (".gz" : String).data p.data =
      List.isPrefixOf ['z', 'g', '.'] p.data.reverse from rfl]
  rcases hl : p.data.reverse with _ | ⟨a, _ | ⟨b, rest⟩⟩ <;> rw [hl] at h
  · exact absurd h (by decide)
  · exact absurd h (by simp [List.isPrefixOf])
  · simp only [List.isPrefixOf, Bool.and_eq_true, beq_iff_eq] at h
    rcases h with ⟨ha, hb, -⟩
    subst ha
    subst hb
    simp [List.isPrefixOf]

/-- C4 -- `.gz` indexes are decompressed through the gzip reader before
stanza parsing; an `.xz` index is rejected with a format error
immediately and yields no records; `processPackageIndex` then records no
valid paths and queues no jobs for it, and the surrounding distribution's
index loop continues unaffected with the remaining indexes. -/
theorem extractDebs_gz_xz (hash : String → String)
    (gunzip : String → Except String String) (cfg : DittoConfig) (fs : FS)
    (p : String) (e : FileEntry) (dist idx : String) (rest : List String) :
    (fsLookup fs p = some e → e.isDir = false → e.readOk = true →
      ((goEndsWith p ".xz" = true →
          extractDebsFromIndex gunzip fs p =
            Except.error "xz compression not implemented") ∧
        (goEndsWith p ".gz" = true → ∀ txt, gunzip e.content = Except.ok txt →
          extractDebsFromIndex gunzip fs p =
            Except.ok (extractRecords (goLines txt))))) ∧
    (goEndsWith p ".xz" = true →
      processPackageIndex hash gunzip cfg fs p = ([], [])) ∧
    (goEndsWith idx ".xz" = true →
      processIndices hash gunzip cfg fs dist (idx :: rest) =
        processIndices hash gunzip cfg fs dist rest) := by
  have hxzcase : ∀ q, goEndsWith q ".xz" = true →
      ∀ res, extractDebsFromIndex gunzip fs q = res →
        res = Except.error "open: file does not exist" ∨
        res = Except.error "open: is a directory" ∨
        res = Except.error "read error" ∨
        res = Except.error "xz compression not implemented" := by
    intro q hq res hres
    unfold extractDebsFromIndex at hres
    rcases hl : fsLookup fs q with - | eq
    · simp only [hl] at hres
      exact Or.inl hres.symm
    · simp only [hl] at hres
      by_cases hd : eq.isDir = true
      · rw [if_pos hd] at hres
        exact Or.inr (Or.inl hres.symm)
      · rw [if_neg hd] at hres
        by_cases hr : eq.readOk = false
        · rw [if_pos hr] at hres
          exact Or.inr (Or.inr (Or.inl hres.symm))
        · rw [if_neg hr, goEndsWith_xz_not_gz q hq] at hres
          simp only [Bool.false_eq_true, if_false, if_pos hq] at hres
          exact Or.inr (Or.inr (Or.inr hres.symm))
  have hppempty : ∀ q, goEndsWith q ".xz" = true →
      processPackageIndex hash gunzip cfg fs q = ([], []) := by
    intro q hq
    unfold processPackageIndex
    rcases hxzcase q hq (extractDebsFromIndex gunzip fs q) rfl with h | h | h | h <;>
      rw [h]
  refine ⟨?_, hppempty p, ?_⟩
  · intro hl hd hr
    constructor
    · intro hxz
      unfold extractDebsFromIndex
      simp only [hl]
      rw [if_neg (by simp [hd]), if_neg (by simp [hr]),
        goEndsWith_xz_not_gz p hxz]
      simp [hxz]
    · intro hgz txt htxt
      unfold extractDebsFromIndex
      simp only [hl]
      rw [if_neg (by simp [hd]), if_neg (by simp [hr]), if_pos hgz, htxt]
  · intro hxz
    have hidxne : idx ≠ "" := by
      intro h
      rw [h] at hxz
      exact absurd hxz (by decide)
    have hjoin := goEndsWith_pathJoin
      (pathJoin (pathJoin cfg.DownloadPath "dists") dist) idx ".xz" hxz hidxne
    conv_lhs => rw [processIndices]
    by_cases hc : goContains idx "Packages" = true
    · rw [if_pos hc, hppempty _ hjoin]
      simp
    · rw [if_neg hc]
      simp

/-- Witness for C4: a present, readable `.xz` package index is rejected
with the format error and contributes no valid paths and no jobs. -/
theorem extractDebs_gz_xz_witness :
    extractDebsFromIndex (fun s => Except.ok s)
        [("/m/dists/noble/main/binary-amd64/Packages.xz",
          (⟨"raw", true, false⟩ : FileEntry))]
        "/m/dists/noble/main/binary-amd64/Packages.xz" =
      Except.error "xz compression not implemented" ∧
    processPackageIndex (fun _ => "h") (fun s => Except.ok s)
        ⟨"http://u", ["noble"], ["main"], ["amd64"], [], "/m"⟩
        [("/m/dists/noble/main/binary-amd64/Packages.xz",
          (⟨"raw", true, false⟩ : FileEntry))]
        "/m/dists/noble/main/binary-amd64/Packages.xz" = ([], []) := by
  constructor
  · exact ((extractDebs_gz_xz (fun _ => "h") (fun s => Except.ok s)
      ⟨"http://u", ["noble"], ["main"], ["amd64"], [], "/m"⟩
      [("/m/dists/noble/main/binary-amd64/Packages.xz", ⟨"raw", true, false⟩)]
      "/m/dists/noble/main/binary-amd64/Packages.xz" ⟨"raw", true, false⟩
      "noble" "Packages.xz" []).1 (by decide) rfl rfl).1 (by decide)
  · exact (extractDebs_gz_xz (fun _ => "h") (fun s => Except.ok s)
      ⟨"http://u", ["noble"], ["main"], ["amd64"], [], "/m"⟩
      [("/m/dists/noble/main/binary-amd64/Packages.xz", ⟨"raw", true, false⟩)]
      "/m/dists/noble/main/binary-amd64/Packages.xz" ⟨"raw", true, false⟩
      "noble" "Packages.xz" []).2.1 (by decide)

theorem filterMap_eq_nil_of_none {α β : Type} (f : α → Option β) (l : List α)
    (h : ∀ a ∈ l, f a = none) : l.filterMap f = [] := by
  induction l with
  | nil => rfl
  | cons x xs ih =>
    rw [List.filterMap_cons, h x (List.mem_cons_self x xs)]
    exact ih (fun a ha => h a (List.mem_cons_of_mem x ha))

/-- Modelled from the claim's hypothesis: the record's mapped destination
file exists and its content hashes to the record's declared digest. -/
def keptLocally (hash : String → String) (cfg : DittoConfig) (fs : FS)
    (pkg : packageMeta) : Bool :=
  match fsLookup fs (pathJoin cfg.DownloadPath pkg.Path) with
  | some e => !e.isDir && e.readOk && decide (hash e.content = pkg.SHA256)
  | none => false

/-- C6 -- idempotence of the verify/download pipeline: when every decoded
record's destination already holds content with the record's hash, the
verification stage resolves every record as kept, produces zero download
jobs, and the download stage performs zero commits, leaving the
filesystem unchanged. -/
theorem pipeline_idempotent (hash : String → String)
    (fetch : String → Except String (Nat × String)) (cfg : DittoConfig) (fs : FS)
    (debs : List packageMeta)
    (H : ∀ pkg ∈ debs, keptLocally hash cfg fs pkg = true) :
    (∀ pkg ∈ debs, verifyRecord hash cfg fs pkg = none) ∧
    debs.filterMap (verifyRecord hash cfg fs) = [] ∧
    runDownloads hash fetch fs (debs.filterMap (verifyRecord hash cfg fs)) = (fs, 0) := by
  have hnone : ∀ pkg ∈ debs, verifyRecord hash cfg fs pkg = none := by
    intro pkg hm
    have hk := H pkg hm
    unfold keptLocally at hk
    rcases hl : fsLookup fs (pathJoin cfg.DownloadPath pkg.Path) with - | e
    · rw [hl] at hk
      exact absurd hk (by simp)
    · rw [hl] at hk
      simp only [Bool.and_eq_true, Bool.not_eq_true', decide_eq_true_eq] at hk
      obtain ⟨⟨hdir, hrok⟩, hhash⟩ := hk
      unfold verifyRecord verifyFile
      simp only [hl]
      simp [hdir, hrok, hhash]
  have hempty : debs.filterMap (verifyRecord hash cfg fs) = [] :=
    filterMap_eq_nil_of_none _ _ hnone
  exact ⟨hnone, hempty, by rw [hempty]; rfl⟩

/-- Witness for C6 at a concrete input: one record whose pool file is
present with a matching digest yields an empty download queue. -/
theorem pipeline_idempotent_witness :
    List.filterMap
        (verifyRecord (fun _ => "h") ⟨"http://u", ["noble"], ["main"], ["amd64"], [], "/m"⟩
          [("/m/pool/a.deb", (⟨"data", true, false⟩ : FileEntry))])
        [(⟨"pool/a.deb", "h"⟩ : packageMeta)] = [] :=
  (pipeline_idempotent (fun _ => "h") (fun _ => Except.error "offline")
    ⟨"http://u", ["noble"], ["main"], ["amd64"], [], "/m"⟩
    [("/m/pool/a.deb", ⟨"data", true, false⟩)] [⟨"pool/a.deb", "h"⟩] (by decide)).2.1

/-- C10 -- a record whose local file exists (`Stat` succeeds) but whose
hashing fails (`verifyFile` returns an error, e.g. the file cannot be
opened or read) is not kept: it is queued as a download candidate exactly
as on a hash mismatch, carrying the same URL, destination and checksum. -/
theorem verifyRecord_hash_error_queues (hash : String → String) (cfg : DittoConfig)
    (fs : FS) (pkg : packageMeta) (e : FileEntry)
    (hstat : fsLookup fs (pathJoin cfg.DownloadPath pkg.Path) = some e)
    (hfail : e.isDir = true ∨ e.readOk = false) :
    (∃ msg, verifyFile hash fs (pathJoin cfg.DownloadPath pkg.Path) pkg.SHA256 =
        Except.error msg) ∧
    verifyRecord hash cfg fs pkg =
      some ⟨cfg.RepoURL ++ "/" ++ pkg.Path, pathJoin cfg.DownloadPath pkg.Path,
        pkg.SHA256⟩ := by
  have hvf : ∃ msg, verifyFile hash fs (pathJoin cfg.DownloadPath pkg.Path) pkg.SHA256 =
      Except.error msg := by
    unfold verifyFile
    simp only [hstat]
    by_cases hd : e.isDir = true
    · exact ⟨_, by rw [if_pos hd]⟩
    · rcases hfail with hfl | hfl
      · exact absurd hfl hd
      · exact ⟨_, by rw [if_neg hd, if_pos hfl]⟩
  obtain ⟨msg, hmsg⟩ := hvf
  refine ⟨⟨msg, hmsg⟩, ?_⟩
  unfold verifyRecord
  simp only [hstat, hmsg]
  simp

/-- Witness for C10: a pool file that exists but is unreadable is queued
for re-download. -/
theorem verifyRecord_hash_error_queues_witness :
    verifyRecord (fun _ => "h") ⟨"http://u", ["noble"], ["main"], ["amd64"], [], "/m"⟩
        [("/m/pool/a.deb", (⟨"data", false, false⟩ : FileEntry))]
        ⟨"pool/a.deb", "h"⟩ =
      some ⟨"http://u" ++ "/" ++ "pool/a.deb", pathJoin "/m" "pool/a.deb", "h"⟩ :=
  (verifyRecord_hash_error_queues (fun _ => "h")
    ⟨"http://u", ["noble"], ["main"], ["amd64"], [], "/m"⟩
    [("/m/pool/a.deb", ⟨"data", false, false⟩)] ⟨"pool/a.deb", "h"⟩
    ⟨"data", false, false⟩ (by decide) (Or.inr rfl)).2

/-! ## ContentAddressedAliaser: `createByHashLink` -/

theorem fsMkdir_of_present (fs : FS) (p : String)
    (h : (fsLookup fs p).isSome = true) : fsMkdir fs p = fs := by
  unfold fsMkdir
  cases hl : fsLookup fs p with
  | some e => rfl
  | none => rw [hl] at h; exact absurd h (by simp)

/-- `dittoRepo.createByHashLink`: compute the sibling `by-hash/SHA256`
directory of the source, ensure it exists, remove any pre-existing alias
entry for the hash, then hard-link the source to the alias path, falling
back to a byte-for-byte copy when the link fails (`linkOk` is the oracle
for link-layer failures such as cross-device constraints; a link also
fails when the source is missing or a directory, as in the mock). -/
def createByHashLink (linkOk : Bool) (fs : FS) (originalPath hash : String) :
    Except String FS :=
  let byHashDir := goDir originalPath ++ "/by-hash/SHA256"
  let fs0 := fsMkdir fs byHashDir
  let targetPath := byHashDir ++ "/" ++ hash
  let fs1 := fsRemove fs0 targetPath
  let canLink := linkOk && (match fsLookup fs1 originalPath with
    | some e => !e.isDir
    | none => false)
  if canLink = true then
    match fsLookup fs1 originalPath with
    | some e => Except.ok (fsWrite fs1 targetPath e.content)
    | none => Except.error "link: file does not exist"
  else
    match fsLookup fs1 originalPath with
    | none => Except.error "open: file does not exist"
    | some e =>
      if e.isDir = true then Except.error "open: is a directory"
      else if e.readOk = false then Except.error "read error"
      else Except.ok (fsWrite fs1 targetPath e.content)

/-- C9 -- after `createByHashLink` succeeds, the alias at
`<sourceDir>/by-hash/SHA256/<hash>` holds exactly the current content of
the source file, both on the hard-link path and on the copy fallback; and
since the conclusion names the current source content whatever the prior
filesystem held at the alias path, republishing for the same hash after
the source changed yields the fresh content, never the stale alias. -/
theorem createByHashLink_alias_content (linkOk : Bool) (fs : FS)
    (originalPath hash : String) (e : FileEntry) (fs' : FS)
    (hsrc : fsLookup fs originalPath = some e)
    (hne : originalPath ≠ goDir originalPath ++ "/by-hash/SHA256" ++ "/" ++ hash)
    (hok : createByHashLink linkOk fs originalPath hash = Except.ok fs') :
    fsLookup fs' (goDir originalPath ++ "/by-hash/SHA256" ++ "/" ++ hash) =
      some ⟨e.content, true, false⟩ := by
  have hfs0 : fsLookup (fsMkdir fs (goDir originalPath ++ "/by-hash/SHA256"))
      originalPath = some e := by
    by_cases hbd : originalPath = goDir originalPath ++ "/by-hash/SHA256"
    · rw [fsMkdir_of_present fs _ (by rw [← hbd, hsrc]; rfl)]
      exact hsrc
    · rw [fsLookup_mkdir_ne _ _ _ hbd]
      exact hsrc
  have hlook1 : fsLookup (fsRemove (fsMkdir fs (goDir originalPath ++ "/by-hash/SHA256"))
      (goDir originalPath ++ "/by-hash/SHA256" ++ "/" ++ hash)) originalPath = some e := by
    rw [fsLookup_remove_ne _ _ _ hne]
    exact hfs0
  simp only [createByHashLink, hlook1] at hok
  by_cases hcl : (linkOk && !e.isDir) = true
  · rw [if_pos hcl] at hok
    have := Except.ok.inj hok
    rw [← this]
    exact fsLookup_write_self _ _ _
  · rw [if_neg hcl] at hok
    by_cases hd : e.isDir = true
    · rw [if_pos hd] at hok
      exact absurd hok (by simp)
    · rw [if_neg hd] at hok
      by_cases hr : e.readOk = false
      · rw [if_pos hr] at hok
        exact absurd hok (by simp)
      · rw [if_neg hr] at hok
        have := Except.ok.inj hok
        rw [← this]
        exact fsLookup_write_self _ _ _

/-- Witness for C9 on the copy-fallback path, against a filesystem that
already holds a stale alias for the hash: the refreshed alias carries the
current source content. -/
theorem createByHashLink_alias_content_witness :
    fsLookup
        [("/a/b/by-hash/SHA256/abc", (⟨"new", true, false⟩ : FileEntry)),
         ("/a/b/by-hash/SHA256", (⟨"", true, true⟩ : FileEntry)),
         ("/a/b/src.gz", (⟨"new", true, false⟩ : FileEntry))]
        "/a/b/by-hash/SHA256/abc" = some ⟨"new", true, false⟩ := by
  have h := createByHashLink_alias_content false
    [("/a/b/src.gz", ⟨"new", true, false⟩),
     ("/a/b/by-hash/SHA256/abc", ⟨"stale", true, false⟩)]
    "/a/b/src.gz" "abc" ⟨"new", true, false⟩
    [("/a/b/by-hash/SHA256/abc", ⟨"new", true, false⟩),
     ("/a/b/by-hash/SHA256", ⟨"", true, true⟩),
     ("/a/b/src.gz", ⟨"new", true, false⟩)]
    (by decide) (by decide) (by rfl)
  rw [show goDir "/a/b/src.gz" ++ "/by-hash/SHA256" ++ "/" ++ "abc" =
    "/a/b/by-hash/SHA256/abc" from by decide] at h
  exact h

/-! ## OrphanReaper: `cleanupOrphanedPackages` -/

/-- `filepath.Rel(root, p)` followed by `ToSlash`, for `p` strictly below
`root`: drop the root and its separator. -/
def relFromRoot (root p : String) : String :=
  stringDrop p (root.data.length + 1)

/-- The walk callback's deletion test: a non-directory entry below the
pool subtree whose path ends in `.deb` and whose root-relative path is
not in the valid set. -/
def orphanCondition (cfg : DittoConfig) (valid : List String) (p : String)
    (e : FileEntry) : Bool :=
  goStartsWith p (pathJoin cfg.DownloadPath "pool" ++ "/") && !e.isDir &&
    goEndsWith p ".deb" && !(decide (relFromRoot cfg.DownloadPath p ∈ valid))

/-- `dittoRepo.cleanupOrphanedPackages`: a no-op returning nil when the
pool subtree does not exist; otherwise walk the pool subtree collecting
every orphaned `.deb` file into `toRemove`, then remove them. -/
def cleanupOrphanedPackages (cfg : DittoConfig) (valid : List String) (fs : FS) : FS :=
  match fsLookup fs (pathJoin cfg.DownloadPath "pool") with
  | none => fs
  | some _ =>
    let toRemove := fs.filterMap (fun pe =>
      if orphanCondition cfg valid pe.1 pe.2 = true then some pe.1 else none)
    toRemove.foldl (fun acc p => fsRemove acc p) fs

theorem fsLookup_foldl_remove (ps : List String) (fs : FS) (p : String) :
    fsLookup (ps.foldl (fun acc q => fsRemove acc q) fs) p =
      if p ∈ ps then none else fsLookup fs p := by
  induction ps generalizing fs with
  | nil => simp
  | cons q qs ih =>
    rw [List.foldl_cons, ih]
    by_cases hqs : p ∈ qs
    · simp [hqs]
    · by_cases hq : p = q
      · subst hq
        simp [hqs, fsLookup_remove_self]
      · simp [hqs, hq, fsLookup_remove_ne _ _ _ hq]

theorem fsLookup_of_nodup_mem (fs : FS) (hnd : (fs.map Prod.fst).Nodup)
    (p : String) (e : FileEntry) :
    (p, e) ∈ fs ↔ fsLookup fs p = some e := by
  induction fs with
  | nil => simp [fsLookup]
  | cons x rest ih =>
    obtain ⟨q, d⟩ := x
    simp only [List.map_cons, List.nodup_cons] at hnd
    obtain ⟨hq, hrest⟩ := hnd
    constructor
    · intro hm
      rcases List.mem_cons.mp hm with heq | hm'
      · injection heq with h1 h2
        subst h1
        subst h2
        simp [fsLookup]
      · have hp : p ∈ rest.map Prod.fst := List.mem_map.mpr ⟨(p, e), hm', rfl⟩
        have hqp : q ≠ p := by
          intro hcontra
          exact hq (hcontra ▸ hp)
        simp only [fsLookup, if_neg hqp]
        exact (ih hrest).mp hm'
    · intro hl
      simp only [fsLookup] at hl
      by_cases hqp : q = p
      · rw [if_pos hqp] at hl
        exact List.mem_cons.mpr (Or.inl (by rw [hqp, Option.some.inj hl]))
      · rw [if_neg hqp] at hl
        exact List.mem_cons.mpr (Or.inr ((ih hrest).mpr hl))

/-- C7 -- with the pool subtree absent, the cleanup is a no-op; with it
present, the cleanup removes exactly the non-directory entries below
`<root>/pool` whose path ends in `.deb` and whose root-relative path is
absent from the valid set: every valid `.deb` and every non-`.deb` entry
is left untouched. -/
theorem cleanup_removes_exactly_orphans (cfg : DittoConfig) (valid : List String)
    (fs : FS) (hnd : (fs.map Prod.fst).Nodup) :
    (fsLookup fs (pathJoin cfg.DownloadPath "pool") = none →
      cleanupOrphanedPackages cfg valid fs = fs) ∧
    (∀ d, fsLookup fs (pathJoin cfg.DownloadPath "pool") = some d → ∀ p,
      (fsLookup fs p = none → fsLookup (cleanupOrphanedPackages cfg valid fs) p = none) ∧
      (∀ e, fsLookup fs p = some e →
        fsLookup (cleanupOrphanedPackages cfg valid fs) p =
          if goStartsWith p (pathJoin cfg.DownloadPath "pool" ++ "/") = true ∧
              e.isDir = false ∧ goEndsWith p ".deb" = true ∧
              relFromRoot cfg.DownloadPath p ∉ valid
          then none else some e)) := by
  have hclean : ∀ d, fsLookup fs (pathJoin cfg.DownloadPath "pool") = some d →
      cleanupOrphanedPackages cfg valid fs =
        (fs.filterMap (fun pe =>
          if orphanCondition cfg valid pe.1 pe.2 = true then some pe.1 else none)).foldl
          (fun acc p => fsRemove acc p) fs := by
    intro d hpool
    unfold cleanupOrphanedPackages
    rw [hpool]
  have hmem : ∀ p, (p ∈ fs.filterMap (fun pe =>
      if orphanCondition cfg valid pe.1 pe.2 = true then some pe.1 else none)) ↔
      ∃ e, (p, e) ∈ fs ∧ orphanCondition cfg valid p e = true := by
    intro p
    rw [List.mem_filterMap]
    constructor
    · rintro ⟨⟨q, e⟩, hqe, hsome⟩
      by_cases hc : orphanCondition cfg valid q e = true
      · rw [if_pos hc] at hsome
        have : q = p := Option.some.inj hsome
        subst this
        exact ⟨e, hqe, hc⟩
      · rw [if_neg hc] at hsome
        exact absurd hsome (by simp)
    · rintro ⟨e, hpe, hc⟩
      exact ⟨(p, e), hpe, by rw [if_pos hc]⟩
  have hcond : ∀ p, ∀ e : FileEntry, orphanCondition cfg valid p e = true ↔
      (goStartsWith p (pathJoin cfg.DownloadPath "pool" ++ "/") = true ∧
        e.isDir = false ∧ goEndsWith p ".deb" = true ∧
        relFromRoot cfg.DownloadPath p ∉ valid) := by
    intro p e
    unfold orphanCondition
    simp [Bool.and_eq_true, and_assoc]
  constructor
  · intro hmiss
    unfold cleanupOrphanedPackages
    rw [hmiss]
  · intro d hpool p
    constructor
    · intro hl
      rw [hclean d hpool, fsLookup_foldl_remove]
      have hnm : ¬ (p ∈ fs.filterMap (fun pe =>
          if orphanCondition cfg valid pe.1 pe.2 = true then some pe.1 else none)) := by
        rw [hmem p]
        rintro ⟨e, hpe, -⟩
        rw [(fsLookup_of_nodup_mem fs hnd p e).mp hpe] at hl
        exact absurd hl (by simp)
      rw [if_neg hnm]
      exact hl
    · intro e hl
      rw [hclean d hpool, fsLookup_foldl_remove]
      by_cases hor : orphanCondition cfg valid p e = true
      · rw [if_pos ((hmem p).mpr ⟨e, (fsLookup_of_nodup_mem fs hnd p e).mpr hl, hor⟩),
          if_pos ((hcond p e).mp hor)]
      · have hnm : ¬ (p ∈ fs.filterMap (fun pe =>
            if orphanCondition cfg valid pe.1 pe.2 = true then some pe.1 else none)) := by
          rw [hmem p]
          rintro ⟨e', hpe', hor'⟩
          have heq := (fsLookup_of_nodup_mem fs hnd p e').mp hpe'
          rw [hl] at heq
          exact hor ((Option.some.inj heq) ▸ hor')
        rw [if_neg hnm, if_neg (fun hprop => hor ((hcond p e).mpr hprop))]
        exact hl

/-- Witness for C7 at a concrete pool: the unreferenced `.deb` is
removed; the referenced `.deb` and the non-`.deb` file survive. -/
theorem cleanup_removes_exactly_orphans_witness :
    fsLookup (cleanupOrphanedPackages
        ⟨"http://u", ["noble"], ["main"], ["amd64"], [], "/m"⟩ ["pool/a.deb"]
        [("/m/pool", (⟨"", true, true⟩ : FileEntry)),
         ("/m/pool/a.deb", (⟨"A", true, false⟩ : FileEntry)),
         ("/m/pool/b.deb", (⟨"B", true, false⟩ : FileEntry)),
         ("/m/pool/readme.txt", (⟨"R", true, false⟩ : FileEntry))])
        "/m/pool/b.deb" = none ∧
    fsLookup (cleanupOrphanedPackages
        ⟨"http://u", ["noble"], ["main"], ["amd64"], [], "/m"⟩ ["pool/a.deb"]
        [("/m/pool", (⟨"", true, true⟩ : FileEntry)),
         ("/m/pool/a.deb", (⟨"A", true, false⟩ : FileEntry)),
         ("/m/pool/b.deb", (⟨"B", true, false⟩ : FileEntry)),
         ("/m/pool/readme.txt", (⟨"R", true, false⟩ : FileEntry))])
        "/m/pool/a.deb" = some ⟨"A", true, false⟩ ∧
    fsLookup (cleanupOrphanedPackages
        ⟨"http://u", ["noble"], ["main"], ["amd64"], [], "/m"⟩ ["pool/a.deb"]
        [("/m/pool", (⟨"", true, true⟩ : FileEntry)),
         ("/m/pool/a.deb", (⟨"A", true, false⟩ : FileEntry)),
         ("/m/pool/b.deb", (⟨"B", true, false⟩ : FileEntry)),
         ("/m/pool/readme.txt", (⟨"R", true, false⟩ : FileEntry))])
        "/m/pool/readme.txt" = some ⟨"R", true, false⟩ := by
  have h := (cleanup_removes_exactly_orphans
    ⟨"http://u", ["noble"], ["main"], ["amd64"], [], "/m"⟩ ["pool/a.deb"]
    [("/m/pool", ⟨"", true, true⟩),
     ("/m/pool/a.deb", ⟨"A", true, false⟩),
     ("/m/pool/b.deb", ⟨"B", true, false⟩),
     ("/m/pool/readme.txt", ⟨"R", true, false⟩)] (by decide)).2
    ⟨"", true, true⟩ (by decide)
  refine ⟨?_, ?_, ?_⟩
  · rw [(h "/m/pool/b.deb").2 ⟨"B", true, false⟩ (by decide)]
    decide
  · rw [(h "/m/pool/a.deb").2 ⟨"A", true, false⟩ (by decide)]
    decide
  · rw [(h "/m/pool/readme.txt").2 ⟨"R", true, false⟩ (by decide)]
    decide

/-! ## MirrorOrchestrator: `doMirror` -/

inductive MirrorEvent where
  | distProcessed (dist : String)
  | cleanupInvoked
deriving DecidableEq, Repr

/-- Whether the cooperative cancellation signal, once observed, stays
observed at every later check (contexts only ever transition to
cancelled). -/
def CtxMonotone (ctx : Nat → Bool) : Prop :=
  ∀ i j, i ≤ j → ctx i = true → ctx j = true

/-- The control skeleton of `dittoRepo.doMirror`: `ctx k` is the value of
`ctx.Err() != nil` at the k-th cancellation check `doMirror` performs
(one before each distribution, one after the loop).  A failed
distribution is logged and the loop continues, so distribution outcomes
cannot affect this skeleton; within the loop a cancellation check that
fires returns from `doMirror` before the cleanup call. -/
def doMirrorTrace (ctx : Nat → Bool) : Nat → List String → List MirrorEvent
  | i, [] => if ctx i = true then [] else [MirrorEvent.cleanupInvoked]
  | i, d :: ds =>
    if ctx i = true then []
    else MirrorEvent.distProcessed d :: doMirrorTrace ctx (i + 1) ds

theorem doMirrorTrace_count_le (ctx : Nat → Bool) (ds : List String) :
    ∀ k, (doMirrorTrace ctx k ds).count MirrorEvent.cleanupInvoked ≤ 1 := by
  induction ds with
  | nil =>
    intro k
    unfold doMirrorTrace
    by_cases h : ctx k = true <;> simp [h]
  | cons d ds ih =>
    intro k
    unfold doMirrorTrace
    by_cases h : ctx k = true
    · simp [h]
    · simp only [h, Bool.false_eq_true, ite_false, List.count_cons]
      have : (MirrorEvent.distProcessed d == MirrorEvent.cleanupInvoked) = false := rfl
      rw [this]
      simpa using ih (k + 1)

theorem doMirrorTrace_uncancelled (ctx : Nat → Bool) (ds : List String) :
    ∀ k, (∀ i, k ≤ i → i ≤ k + ds.length → ctx i = false) →
      doMirrorTrace ctx k ds =
        ds.map MirrorEvent.distProcessed ++ [MirrorEvent.cleanupInvoked] := by
  induction ds with
  | nil =>
    intro k h
    unfold doMirrorTrace
    rw [if_neg (by rw [h k le_rfl (by simp)]; simp)]
    rfl
  | cons d ds ih =>
    intro k h
    unfold doMirrorTrace
    rw [if_neg (by rw [h k le_rfl (by simp)]; simp)]
    rw [ih (k + 1) (fun i h1 h2 => h i (by omega) (by simp at h2 ⊢; omega))]
    rfl

theorem doMirrorTrace_cancelled (ctx : Nat → Bool) (ds : List String) :
    ∀ k, ctx (k + ds.length) = true →
      MirrorEvent.cleanupInvoked ∉ doMirrorTrace ctx k ds := by
  induction ds with
  | nil =>
    intro k hc
    unfold doMirrorTrace
    rw [if_pos (by simpa using hc)]
    simp
  | cons d ds ih =>
    intro k hc
    unfold doMirrorTrace
    by_cases h : ctx k = true
    · rw [if_pos h]
      simp
    · rw [if_neg h]
      intro hmem
      rcases List.mem_cons.mp hmem with heq | hmem'
      · exact absurd heq (by simp)
      · exact ih (k + 1) (by
          have : k + 1 + ds.length = k + (ds.length + 1) := by omega
          rw [this]
          simpa using hc) hmem'

/-- C8 -- per orchestration, the orphan cleanup runs at most once; it
runs exactly once, strictly after every configured distribution has been
processed, when no performed cancellation check fired; and it never runs
when cancellation has been observed at any check up to the post-loop
one. -/
theorem doMirror_cleanup_policy (ctx : Nat → Bool) (dists : List String)
    (hmono : CtxMonotone ctx) :
    ((doMirrorTrace ctx 0 dists).count MirrorEvent.cleanupInvoked ≤ 1) ∧
    (ctx dists.length = false →
      doMirrorTrace ctx 0 dists =
        dists.map MirrorEvent.distProcessed ++ [MirrorEvent.cleanupInvoked]) ∧
    ((∃ i, i ≤ dists.length ∧ ctx i = true) →
      MirrorEvent.cleanupInvoked ∉ doMirrorTrace ctx 0 dists) := by
  refine ⟨doMirrorTrace_count_le ctx dists 0, ?_, ?_⟩
  · intro h
    have hall : ∀ i, i ≤ dists.length → ctx i = false := by
      intro i hle
      by_contra hc
      simp only [Bool.not_eq_false] at hc
      rw [hmono i dists.length hle hc] at h
      exact absurd h (by simp)
    exact doMirrorTrace_uncancelled ctx dists 0 (fun i h1 h2 => hall i (by simpa using h2))
  · rintro ⟨i, hle, hi⟩
    exact doMirrorTrace_cancelled ctx dists 0
      (by simpa using hmono i dists.length hle hi)

/-- Witness for C8: with no cancellation and one distribution, the trace
is the processed distribution followed by exactly one cleanup. -/
theorem doMirror_cleanup_policy_witness :
    doMirrorTrace (fun _ => false) 0 ["noble"] =
      List.map MirrorEvent.distProcessed ["noble"] ++ [MirrorEvent.cleanupInvoked] :=
  (doMirror_cleanup_policy (fun _ => false) ["noble"]
    (fun _ _ _ h => h)).2.1 rfl

end Ditto
